import Mathlib

/-!
Verification of the watermark/object removal engine of the repository
(`src/services/watermark/removalService.ts`): automatic block-based region
detection plus context-aware inpainting over an RGBA raster.

The embedding models a canvas pixel buffer as a flat byte map
(`(y * width + x) * 4 + channel`, exactly the layout of `ImageData.data`).
JavaScript `number` arithmetic on the small integers involved is modelled
exactly: the float threshold comparisons of the detector
(`count > total * 0.3`, `count > total * 0.5`, `(R+G+B)/3 > 200`,
`(R+G+B)/3 < 50`) are stated in the cross-multiplied integer form, which
agrees with the IEEE-double evaluation on every value the code can
produce (counts at most `2^20` and channel sums at most `765`, far below
any range where the rounding of the double constants `0.3`/`0.5` or of
the divisions can flip a strict comparison against an integer);
the equivalence with the rational form written in the specification is
proved in the theorems below.  `Math.random()`-driven draws are modelled
by an explicit index stream `rand : Nat → Nat` (one counter value per
draw, reduced modulo the pool size), covering every behaviour
`Math.floor(Math.random() * pool.length)` can produce.  Writes through
`Uint8ClampedArray` round half to even and clamp to `[0, 255]`
(`storeByte` below); on the quotients that occur here the double
division is exact enough that the rounded result agrees with the exact
rational rounding modelled.
-/

/-- One RGBA sample, as pushed into the context pool
(`[pixel[0], pixel[1], pixel[2], pixel[3]]` in the source). -/
structure Pixel where
  r : Nat
  g : Nat
  b : Nat
  a : Nat
deriving DecidableEq

/-- Channel projection: channel `0` is red, `1` green, `2` blue, `3` alpha,
matching the `ImageData` byte order. -/
def Pixel.chan (p : Pixel) (c : Nat) : Nat :=
  if c = 0 then p.r else if c = 1 then p.g else if c = 2 then p.b else p.a

/-- The canvas bitmap: `width × height` RGBA pixels, byte at flat index
`(y * width + x) * 4 + channel`. -/
structure PixelBuffer where
  width : Nat
  height : Nat
  data : Nat → Nat

/-- The tag of `WatermarkSelection` from `src/types/watermark.ts`:
user-drawn (`manual`) or detector-produced (`auto`). -/
inductive SelectionKind where
  | manual
  | auto
deriving DecidableEq

/-- `WatermarkSelection` from `src/types/watermark.ts`: a rectangle whose
fields are normalized against the image dimensions. -/
structure WatermarkSelection where
  x : ℚ
  y : ℚ
  width : ℚ
  height : ℚ
  type : SelectionKind
deriving DecidableEq

/-- Rounding used by `Uint8ClampedArray` stores of the quotient `s / k`:
round to the nearest integer, ties to even. -/
def roundHalfEven (s k : Nat) : Nat :=
  if 2 * (s % k) < k then s / k
  else if k < 2 * (s % k) then s / k + 1
  else if (s / k) % 2 = 0 then s / k else s / k + 1

/-- A `Uint8ClampedArray` store of the quotient `s / k`: clamp to `255`
after rounding (the values in this development are never negative). -/
def storeByte (s k : Nat) : Nat :=
  min 255 (roundHalfEven s k)

/-- The integers `lo, lo+1, …, hi-1`, the index set of a JavaScript loop
`for (let i = lo; i < hi; i++)`. -/
def intRange (lo hi : Int) : List Int :=
  (List.range (hi - lo).toNat).map (fun k : Nat => lo + (k : Int))

/-! ## Region detector (`detectWatermarks`) -/

/-- The grid size of the detector: the image is scanned in 32 × 32 blocks. -/
def gridSize : Nat := 32

/-- Pixel positions `(x, y)` of the block with origin `(bx, gy)`, clipped to
the image bounds: the traversal of the two inner counting loops
(`for dy … y + dy < img.height`, `for dx … x + dx < img.width`). -/
def blockPixelList (w h bx gy : Nat) : List (Nat × Nat) :=
  (List.range (min gridSize (h - gy))).flatMap fun dy =>
    (List.range (min gridSize (w - bx))).map fun dx => (bx + dx, gy + dy)

/-- Semi-transparency test of the detector: alpha byte `< 200`. -/
def isTransparent (buf : PixelBuffer) (pos : Nat × Nat) : Bool :=
  buf.data ((pos.2 * buf.width + pos.1) * 4 + 3) < 200

/-- Brightness-extremity test of the detector: luminance `(R+G+B)/3`
strictly above `200` or strictly below `50`, written in the exact integer
form `R+G+B > 600 ∨ R+G+B < 150` (`brightExtreme_iff` below proves it
equal to the rational form). -/
def isExtreme (buf : PixelBuffer) (pos : Nat × Nat) : Bool :=
  let idx := (pos.2 * buf.width + pos.1) * 4
  let s := buf.data idx + buf.data (idx + 1) + buf.data (idx + 2)
  600 < s ∨ s < 150

/-- One step of the counting loop: bump `transparentPixels`,
`brightPixels` and `totalPixels` for one pixel. -/
def countStep (buf : PixelBuffer) (acc : Nat × Nat × Nat) (pos : Nat × Nat) :
    Nat × Nat × Nat :=
  (if isTransparent buf pos then acc.1 + 1 else acc.1,
   if isExtreme buf pos then acc.2.1 + 1 else acc.2.1,
   acc.2.2 + 1)

/-- `(transparentPixels, brightPixels, totalPixels)` of the block with
origin `(bx, gy)`, computed by the nested counting loops. -/
def blockCounts (buf : PixelBuffer) (bx gy : Nat) : Nat × Nat × Nat :=
  (blockPixelList buf.width buf.height bx gy).foldl (countStep buf) (0, 0, 0)

/-- The flagging condition of the detector,
`transparentPixels > totalPixels * 0.3 || brightPixels > totalPixels * 0.5`,
written in the exact cross-multiplied integer form
(`blockFlagged_iff` below proves it equal to the rational form). -/
def blockFlagged (buf : PixelBuffer) (bx gy : Nat) : Bool :=
  let cnts := blockCounts buf bx gy
  3 * cnts.2.2 < 10 * cnts.1 ∨ cnts.2.2 < 2 * cnts.2.1

/-- The normalized selection the detector pushes for a flagged block with
origin `(bx, gy)`. -/
def blockSelection (w h : Nat) (bx gy : Nat) : WatermarkSelection :=
  { x := (bx : ℚ) / (w : ℚ)
    y := (gy : ℚ) / (h : ℚ)
    width := ((min gridSize (w - bx) : Nat) : ℚ) / (w : ℚ)
    height := ((min gridSize (h - gy) : Nat) : ℚ) / (h : ℚ)
    type := SelectionKind.auto }

/-- Block origins visited by the scan loops
(`for y += gridSize` outer, `for x += gridSize` inner), in row-major
order, as `(x, y)` pairs. -/
def blockOrigins (w h : Nat) : List (Nat × Nat) :=
  ((List.range ((h + (gridSize - 1)) / gridSize)).map (· * gridSize)).flatMap fun gy =>
    ((List.range ((w + (gridSize - 1)) / gridSize)).map (· * gridSize)).map fun bx => (bx, gy)

/-- `WatermarkRemovalService.detectWatermarks`, restricted to its pure
pixel computation: scan the image in 32 × 32 blocks and emit a normalized
selection for every block whose transparency or brightness-extremity
counts exceed the thresholds. -/
def detectWatermarks (buf : PixelBuffer) : List WatermarkSelection :=
  (blockOrigins buf.width buf.height).filterMap fun pos =>
    if blockFlagged buf pos.1 pos.2 then
      some (blockSelection buf.width buf.height pos.1 pos.2)
    else none

/-! ## Region inpainter (`inpaintRegion`) -/

/-- Reading one pixel of the canvas at an in-bounds position
(`ctx.getImageData(px, py, 1, 1).data`). -/
def pixelAt (buf : PixelBuffer) (px py : Int) : Pixel :=
  let idx := (py.toNat * buf.width + px.toNat) * 4
  ⟨buf.data idx, buf.data (idx + 1), buf.data (idx + 2), buf.data (idx + 3)⟩

/-- `ctx.getImageData(x, y, w, h)`: the extracted block as a flat byte
map; source pixels outside the canvas read as transparent black, per the
HTML canvas specification. -/
def getImageData (buf : PixelBuffer) (x y : Int) (w h : Nat) : Nat → Nat :=
  fun idx =>
    let p := idx / 4
    let c := idx % 4
    let px : Int := x + (p % w : Nat)
    let py : Int := y + (p / w : Nat)
    if 0 ≤ px ∧ px < (buf.width : Int) ∧ 0 ≤ py ∧ py < (buf.height : Int) then
      buf.data ((py.toNat * buf.width + px.toNat) * 4 + c)
    else 0

/-- `ctx.putImageData(block, x, y)` for a `w × h` block: write the block
back onto the canvas, dropping the parts that fall outside the canvas,
per the HTML canvas specification. -/
def putImageData (buf : PixelBuffer) (block : Nat → Nat) (x y : Int) (w h : Nat) :
    PixelBuffer :=
  { buf with
    data := fun idx =>
      let p := idx / 4
      let c := idx % 4
      let px : Int := (p % buf.width : Nat)
      let py : Int := (p / buf.width : Nat)
      if idx < buf.width * buf.height * 4 ∧
          x ≤ px ∧ px < x + w ∧ y ≤ py ∧ py < y + h then
        block (((py - y).toNat * w + (px - x).toNat) * 4 + c)
      else buf.data idx }

/-- `sampleRadius = Math.min(20, Math.floor(Math.min(width, height) / 4))`. -/
def sampleRadius (w h : Nat) : Nat :=
  min 20 (min w h / 4)

/-- The in-bounds positions visited by one sampling strip: offsets
`i ∈ [ilo, ihi)` (outer loop), `j ∈ [jlo, jhi)` (inner loop) relative to
the region origin `(x, y)`, keeping only positions inside the canvas. -/
def stripPositions (buf : PixelBuffer) (x y ilo ihi jlo jhi : Int) : List (Int × Int) :=
  (intRange ilo ihi).flatMap fun i =>
    (intRange jlo jhi).filterMap fun j =>
      let px := x + i
      let py := y + j
      if 0 ≤ px ∧ px < (buf.width : Int) ∧ 0 ≤ py ∧ py < (buf.height : Int) then
        some (px, py)
      else none

/-- The canvas positions contributing to the context pool: the four
sampling strips (top, bottom, left, right edges) of `inpaintRegion`, in
source order. -/
def ctxPoolPositions (buf : PixelBuffer) (x y : Int) (w h r : Nat) : List (Int × Int) :=
  stripPositions buf x y (-(r : Int)) ((w : Int) + r) (-(r : Int)) 0 ++
  stripPositions buf x y (-(r : Int)) ((w : Int) + r) (h : Int) ((h : Int) + r) ++
  stripPositions buf x y (-(r : Int)) 0 0 (h : Int) ++
  stripPositions buf x y (w : Int) ((w : Int) + r) 0 (h : Int)

/-- The context pool `surroundingPixels`: the RGBA samples read at the
strip positions. -/
def ctxPool (buf : PixelBuffer) (x y : Int) (w h r : Nat) : List Pixel :=
  (ctxPoolPositions buf x y w h r).map fun pos => pixelAt buf pos.1 pos.2

/-- The fallback fill: every byte of the extracted block is set to `255`
(opaque white). -/
def whiteFill (data0 : Nat → Nat) (w h : Nat) : Nat → Nat :=
  fun idx => if idx < w * h * 4 then 255 else data0 idx

/-- The stochastic fill: for each pixel of the block, draw 5 samples from
the context pool (one pool index per draw, all four channels taken from
the same sample) and store the per-channel average through the clamped
byte store. -/
def fillFromPool (data0 : Nat → Nat) (pool : List Pixel) (rand : Nat → Nat)
    (w h : Nat) : Nat → Nat :=
  fun idx =>
    if idx < w * h * 4 then
      let p := idx / 4
      let c := idx % 4
      let samples := (List.range 5).map fun s =>
        pool.getD (rand (p * 5 + s) % pool.length) ⟨0, 0, 0, 0⟩
      storeByte ((samples.map fun q => q.chan c).sum) 5
    else data0 idx

/-- The in-bounds block positions within the square kernel of the given
radius around `(xx, yy)`, as visited by the blur loops. -/
def nbrPositions (w h xx yy radius : Nat) : List (Nat × Nat) :=
  (intRange (-(radius : Int)) ((radius : Int) + 1)).flatMap fun dy =>
    (intRange (-(radius : Int)) ((radius : Int) + 1)).filterMap fun dx =>
      let nx := (xx : Int) + dx
      let ny := (yy : Int) + dy
      if 0 ≤ nx ∧ nx < (w : Int) ∧ 0 ≤ ny ∧ ny < (h : Int) then
        some (nx.toNat, ny.toNat)
      else none

/-- `WatermarkRemovalService.gaussianBlur`: box blur over the block,
averaging, for each pixel and channel, the snapshot values of all
in-bounds neighbours within the square kernel (variable denominator at
the edges), reading only from the pre-blur snapshot. -/
def gaussianBlur (data : Nat → Nat) (w h radius : Nat) : Nat → Nat :=
  fun idx =>
    if idx < w * h * 4 then
      let p := idx / 4
      let c := idx % 4
      let ns := nbrPositions w h (p % w) (p / w) radius
      storeByte ((ns.map fun q => data ((q.2 * w + q.1) * 4 + c)).sum) ns.length
    else data idx

/-- The failure kind of the specification for degenerate regions:
a region that denormalizes to zero width or height.
Modelled from the spec: the `ctx.getImageData(x, y, width, height)` call
that opens `inpaintRegion` is a platform API absent from the sources; the
HTML canvas specification makes it throw (`IndexSizeError`) when `width`
or `height` is zero, which the spec of this repository surfaces as
`OutOfBoundsError`. -/
inductive OutOfBoundsError where
  | mk
deriving DecidableEq

/-- `WatermarkRemovalService.inpaintRegion`: extract the region block,
collect the surrounding context pool, fill the block (white fallback when
the pool is empty, otherwise 5-sample averages followed by the box blur of
radius 2) and write the block back to the canvas. -/
def inpaintRegion (buf : PixelBuffer) (x y : Int) (width height : Nat)
    (rand : Nat → Nat) : Except OutOfBoundsError PixelBuffer :=
  if width = 0 ∨ height = 0 then Except.error OutOfBoundsError.mk
  else
    let data0 := getImageData buf x y width height
    let pool := ctxPool buf x y width height (sampleRadius width height)
    let filled :=
      if pool.length = 0 then whiteFill data0 width height
      else gaussianBlur (fillFromPool data0 pool rand width height) width height 2
    Except.ok (putImageData buf filled x y width height)

/-- `Math.floor(coord * dimension)`, computed on the rational's raw
numerator and denominator so that it is kernel-executable
(`denormalize_eq_floor` below proves it equal to `⌊coord * dimension⌋`). -/
def denormalize (q : ℚ) (n : Nat) : Int :=
  q.num * (n : Int) / (q.den : Int)

/-- The selection loop of `removeWatermark`: denormalize each selection,
inpaint it, and record the progress value `(i + 1) / total * 100` emitted
after the region completes.  The random stream is indexed per region.
The returned list is the chronological sequence of progress callbacks. -/
def removeLoop (buf : PixelBuffer) (sels : List WatermarkSelection) (total i : Nat)
    (rand : Nat → Nat → Nat) : Except OutOfBoundsError (PixelBuffer × List ℚ) :=
  match sels with
  | [] => Except.ok (buf, [])
  | sel :: rest =>
    let x := denormalize sel.x buf.width
    let y := denormalize sel.y buf.height
    let w := (denormalize sel.width buf.width).toNat
    let h := (denormalize sel.height buf.height).toNat
    match inpaintRegion buf x y w h (rand i) with
    | Except.error e => Except.error e
    | Except.ok buf2 =>
      match removeLoop buf2 rest total (i + 1) rand with
      | Except.error e => Except.error e
      | Except.ok (buf3, ps) =>
        Except.ok (buf3, (((i + 1 : Nat) : ℚ) / (total : ℚ) * 100) :: ps)

/-- `WatermarkRemovalService.removeWatermark`, restricted to its pure
pixel computation: process the selections in order against the canvas,
emitting one progress value after each region.  (The selection fields are
normalized to `[0, 1]`, the invariant of the `Region` data model, under
which the denormalized width and height are non-negative.) -/
def removeWatermark (buf : PixelBuffer) (sels : List WatermarkSelection)
    (rand : Nat → Nat → Nat) : Except OutOfBoundsError (PixelBuffer × List ℚ) :=
  removeLoop buf sels sels.length 0 rand

/-! ## Concrete fixtures -/

/-- The luminance-extremity predicate exactly as the specification words
it, with the rational quotient `(R+G+B)/3`; used to state the detector
claims in the spec's own arithmetic. -/
def luminExtreme (buf : PixelBuffer) (pos : Nat × Nat) : Bool :=
  let idx := (pos.2 * buf.width + pos.1) * 4
  let lum : ℚ := ((buf.data idx + buf.data (idx + 1) + buf.data (idx + 2) : Nat) : ℚ) / 3
  decide (lum > 200 ∨ lum < 50)

/-- A 32 × 32 test image whose first `k` pixels have alpha `150` and the
rest alpha `255`, every colour byte held at the mid-range value `128`
(luminance `128`, triggering no brightness extremity). -/
def bufThresh (k : Nat) : PixelBuffer :=
  { width := 32, height := 32,
    data := fun idx => if idx % 4 = 3 then (if idx / 4 < k then 150 else 255) else 128 }

/-- A 1 × 1 image, every byte `7`. -/
def buf1 : PixelBuffer :=
  { width := 1, height := 1, data := fun _ => 7 }

/-- A 2 × 1 image whose byte at flat index `i` is `i`. -/
def buf2x1 : PixelBuffer :=
  { width := 2, height := 1, data := fun idx => idx }

/-- A 4 × 4 image, every byte `100`. -/
def buf4 : PixelBuffer :=
  { width := 4, height := 4, data := fun _ => 100 }

/-- The selection covering the whole image. -/
def sel11 : WatermarkSelection :=
  ⟨0, 0, 1, 1, SelectionKind.auto⟩

/-! ## General lemmas -/

theorem mem_intRange {a lo hi : Int} : a ∈ intRange lo hi ↔ lo ≤ a ∧ a < hi := by
  constructor
  · intro hmem
    obtain ⟨k, hk, hek⟩ := List.mem_map.1 hmem
    rw [List.mem_range] at hk
    omega
  · intro hb
    exact List.mem_map.2 ⟨(a - lo).toNat, List.mem_range.2 (by omega), by omega⟩

theorem roundHalfEven_le {s k M : Nat} (hk : 0 < k) (hs : s ≤ k * M) :
    roundHalfEven s k ≤ M := by
  have hq : s / k ≤ M := by
    have h2 : s / k ≤ k * M / k := Nat.div_le_div_right hs
    rwa [Nat.mul_div_cancel_left M hk] at h2
  have hdm := Nat.div_add_mod s k
  have hr : s % k < k := Nat.mod_lt s hk
  unfold roundHalfEven
  by_cases hqM : s / k = M
  · have hkq : k * (s / k) = k * M := by rw [hqM]
    have hr0 : s % k = 0 := by omega
    rw [if_pos (by omega)]
    exact hq
  · split
    · exact hq
    · split
      · omega
      · split <;> omega

theorem le_roundHalfEven {s k m : Nat} (hk : 0 < k) (hs : k * m ≤ s) :
    m ≤ roundHalfEven s k := by
  have hq : m ≤ s / k := (Nat.le_div_iff_mul_le hk).2 (by rw [Nat.mul_comm]; exact hs)
  unfold roundHalfEven
  split
  · exact hq
  · split
    · omega
    · split <;> omega

theorem storeByte_le {s k M : Nat} (hk : 0 < k) (hs : s ≤ k * M) :
    storeByte s k ≤ M :=
  le_trans (min_le_right _ _) (roundHalfEven_le hk hs)

theorem le_storeByte {s k m : Nat} (hk : 0 < k) (hm : m ≤ 255) (hs : k * m ≤ s) :
    m ≤ storeByte s k :=
  le_min hm (le_roundHalfEven hk hs)

theorem list_sum_le {l : List Nat} {M : Nat} (hb : ∀ v ∈ l, v ≤ M) :
    l.sum ≤ l.length * M := by
  induction l with
  | nil => simp
  | cons a t ih =>
    have ha := hb a (by simp)
    have ht := ih fun v hv => hb v (by simp [hv])
    simp only [List.sum_cons, List.length_cons]
    calc a + t.sum ≤ M + t.length * M := by omega
    _ = (t.length + 1) * M := by ring

theorem le_list_sum {l : List Nat} {m : Nat} (hb : ∀ v ∈ l, m ≤ v) :
    l.length * m ≤ l.sum := by
  induction l with
  | nil => simp
  | cons a t ih =>
    have ha := hb a (by simp)
    have ht := ih fun v hv => hb v (by simp [hv])
    simp only [List.sum_cons, List.length_cons]
    calc (t.length + 1) * m = m + t.length * m := by ring
    _ ≤ a + t.sum := by omega

theorem flatIdx_lt {a b w h c : Nat} (ha : a < h) (hb : b < w) (hc : c < 4) :
    (a * w + b) * 4 + c < w * h * 4 := by
  have h1 : a * w + b < w * h := by
    calc a * w + b < a * w + w := by omega
    _ = (a + 1) * w := by ring
    _ ≤ h * w := Nat.mul_le_mul_right w (by omega)
    _ = w * h := by ring
  omega

/-- Reading the written buffer at an in-bounds position: inside the
target rectangle the value comes from the block, outside it the original
byte is returned. -/
theorem putImageData_data (buf : PixelBuffer) (block : Nat → Nat) (x y : Int)
    (w h : Nat) (px py c : Nat)
    (hpx : px < buf.width) (hpy : py < buf.height) (hc : c < 4) :
    (putImageData buf block x y w h).data ((py * buf.width + px) * 4 + c) =
      if x ≤ (px : Int) ∧ (px : Int) < x + w ∧ y ≤ (py : Int) ∧ (py : Int) < y + h then
        block ((((py : Int) - y).toNat * w + ((px : Int) - x).toNat) * 4 + c)
      else buf.data ((py * buf.width + px) * 4 + c) := by
  have hW : 0 < buf.width := lt_of_le_of_lt (Nat.zero_le _) hpx
  have hdiv4 : ((py * buf.width + px) * 4 + c) / 4 = py * buf.width + px := by omega
  have hmod4 : ((py * buf.width + px) * 4 + c) % 4 = c := by omega
  have hcomm : py * buf.width + px = px + py * buf.width := by ring
  have hmodW : (py * buf.width + px) % buf.width = px := by
    rw [hcomm, Nat.add_mul_mod_self_right, Nat.mod_eq_of_lt hpx]
  have hdivW : (py * buf.width + px) / buf.width = py := by
    rw [hcomm, Nat.add_mul_div_right px py hW, Nat.div_eq_of_lt hpx, Nat.zero_add]
  have hlt : (py * buf.width + px) * 4 + c < buf.width * buf.height * 4 := by
    have h1 : py * buf.width + px < buf.width * buf.height := by
      calc py * buf.width + px < py * buf.width + buf.width := by omega
      _ = (py + 1) * buf.width := by ring
      _ ≤ buf.height * buf.width := Nat.mul_le_mul_right _ (by omega)
      _ = buf.width * buf.height := by ring
    omega
  unfold putImageData
  dsimp only
  rw [hdiv4, hmod4, hmodW, hdivW]
  by_cases hrect : x ≤ (px : Int) ∧ (px : Int) < x + w ∧ y ≤ (py : Int) ∧ (py : Int) < y + h
  · rw [if_pos ⟨hlt, hrect.1, hrect.2.1, hrect.2.2.1, hrect.2.2.2⟩, if_pos hrect]
  · rw [if_neg (by tauto), if_neg hrect]

theorem center_mem_nbrPositions {w h xx yy radius : Nat} (hx : xx < w) (hy : yy < h) :
    (xx, yy) ∈ nbrPositions w h xx yy radius := by
  unfold nbrPositions
  refine List.mem_flatMap.2 ⟨0, mem_intRange.2 (by omega), ?_⟩
  refine List.mem_filterMap.2 ⟨0, mem_intRange.2 (by omega), ?_⟩
  rw [if_pos (by constructor <;> omega)]
  simp

/-- C5: each channel of each blurred pixel is an average of the snapshot
values of its in-bounds neighbours within the 5 × 5 kernel, so it lies
between any uniform lower and upper bound of those neighbour values:
the blur never leaves the observed neighbour range. -/
theorem gaussianBlur_bounded (data : Nat → Nat) (w h xx yy c m M : Nat)
    (hx : xx < w) (hy : yy < h) (hc : c < 4)
    (hbound : ∀ q ∈ nbrPositions w h xx yy 2,
      m ≤ data ((q.2 * w + q.1) * 4 + c) ∧ data ((q.2 * w + q.1) * 4 + c) ≤ M)
    (hM : M ≤ 255) :
    m ≤ gaussianBlur data w h 2 ((yy * w + xx) * 4 + c) ∧
      gaussianBlur data w h 2 ((yy * w + xx) * 4 + c) ≤ M := by
  have hW : 0 < w := lt_of_le_of_lt (Nat.zero_le _) hx
  have hidx : (yy * w + xx) * 4 + c < w * h * 4 := flatIdx_lt hy hx hc
  have hdiv4 : ((yy * w + xx) * 4 + c) / 4 = yy * w + xx := by omega
  have hmod4 : ((yy * w + xx) * 4 + c) % 4 = c := by omega
  have hcomm : yy * w + xx = xx + yy * w := by ring
  have hmodW : (yy * w + xx) % w = xx := by
    rw [hcomm, Nat.add_mul_mod_self_right, Nat.mod_eq_of_lt hx]
  have hdivW : (yy * w + xx) / w = yy := by
    rw [hcomm, Nat.add_mul_div_right xx yy hW, Nat.div_eq_of_lt hx, Nat.zero_add]
  unfold gaussianBlur
  rw [if_pos hidx]
  dsimp only
  rw [hdiv4, hmod4, hmodW, hdivW]
  have hcen : (xx, yy) ∈ nbrPositions w h xx yy 2 := center_mem_nbrPositions hx hy
  have hne : nbrPositions w h xx yy 2 ≠ [] := fun hnil => by
    rw [hnil] at hcen; cases hcen
  have hlen : 0 < (nbrPositions w h xx yy 2).length := List.length_pos.2 hne
  have hmap :
      ∀ v ∈ (nbrPositions w h xx yy 2).map (fun q => data ((q.2 * w + q.1) * 4 + c)),
        m ≤ v ∧ v ≤ M := by
    intro v hv
    obtain ⟨q, hq, rfl⟩ := List.mem_map.1 hv
    exact hbound q hq
  have hlenmap :
      ((nbrPositions w h xx yy 2).map (fun q => data ((q.2 * w + q.1) * 4 + c))).length =
        (nbrPositions w h xx yy 2).length := List.length_map _ _
  constructor
  · refine le_storeByte hlen (le_trans (le_trans (hbound _ hcen).1 (hbound _ hcen).2) hM) ?_
    rw [← hlenmap]
    exact le_list_sum fun v hv => (hmap v hv).1
  · refine storeByte_le hlen ?_
    rw [← hlenmap]
    exact list_sum_le fun v hv => (hmap v hv).2

/-- C5 witness: a 1 × 1 constant-7 image blurred at its only pixel stays
within the (degenerate) neighbour range `[7, 7]`. -/
theorem gaussianBlur_bounded_witness :
    7 ≤ gaussianBlur (fun _ => 7) 1 1 2 ((0 * 1 + 0) * 4 + 0) ∧
      gaussianBlur (fun _ => 7) 1 1 2 ((0 * 1 + 0) * 4 + 0) ≤ 7 :=
  gaussianBlur_bounded (fun _ => 7) 1 1 0 0 0 7 7 (by decide) (by decide) (by decide)
    (by decide) (by decide)

/-- C4: with a non-empty context pool, the sampling stage of inpainting
sets each pixel of the region block to the clamped rounded mean, per
channel, of 5 samples drawn from the pool by the random index stream;
the same 5 samples serve all four channels of the pixel (draws are joint
across R,G,B,A), and the draw counters are private to the pixel. -/
theorem fillFromPool_mean (data0 : Nat → Nat) (pool : List Pixel) (rand : Nat → Nat)
    (w h p : Nat) (hpool : pool ≠ []) (hp : p < w * h) :
    ∃ samples : List Pixel, samples.length = 5 ∧ (∀ q ∈ samples, q ∈ pool) ∧
      ∀ c < 4, fillFromPool data0 pool rand w h (p * 4 + c) =
        storeByte ((samples.map fun q => q.chan c).sum) 5 := by
  have hlen : 0 < pool.length := List.length_pos.2 hpool
  refine ⟨(List.range 5).map fun s => pool.getD (rand (p * 5 + s) % pool.length) ⟨0, 0, 0, 0⟩,
    by simp, ?_, ?_⟩
  · intro q hq
    obtain ⟨s, hs, rfl⟩ := List.mem_map.1 hq
    have hidx : rand (p * 5 + s) % pool.length < pool.length := Nat.mod_lt _ hlen
    rw [List.getD_eq_getElem pool _ hidx]
    exact List.getElem_mem hidx
  · intro c hc
    have hidx4 : p * 4 + c < w * h * 4 := by omega
    unfold fillFromPool
    rw [if_pos hidx4]
    dsimp only
    have h1 : (p * 4 + c) / 4 = p := by omega
    have h2 : (p * 4 + c) % 4 = c := by omega
    rw [h1, h2]

/-- C4 witness: a singleton pool on a 1 × 1 region. -/
theorem fillFromPool_mean_witness :
    ∃ samples : List Pixel, samples.length = 5 ∧
      (∀ q ∈ samples, q ∈ [Pixel.mk 1 2 3 4]) ∧
      ∀ c < 4, fillFromPool (fun _ => 0) [Pixel.mk 1 2 3 4] (fun _ => 0) 1 1 (0 * 4 + c) =
        storeByte ((samples.map fun q => q.chan c).sum) 5 :=
  fillFromPool_mean (fun _ => 0) [Pixel.mk 1 2 3 4] (fun _ => 0) 1 1 0 (by decide) (by decide)

/-- C9: a region whose denormalized width or height is zero makes
inpainting fail with `OutOfBoundsError` instead of completing. -/
theorem inpaintRegion_degenerate (buf : PixelBuffer) (x y : Int) (width height : Nat)
    (rand : Nat → Nat) (hdeg : width = 0 ∨ height = 0) :
    inpaintRegion buf x y width height rand = Except.error OutOfBoundsError.mk := by
  unfold inpaintRegion
  rw [if_pos hdeg]

/-- C9 witness: zero width on the 1 × 1 test image. -/
theorem inpaintRegion_degenerate_witness :
    inpaintRegion buf1 0 0 0 1 (fun _ => 0) = Except.error OutOfBoundsError.mk :=
  inpaintRegion_degenerate buf1 0 0 0 1 (fun _ => 0) (by decide)

/-- When the context pool is empty, the inpainted buffer holds `255` in
every byte of every in-bounds region pixel (shared auxiliary fact). -/
theorem inpaintWhiteAux (buf : PixelBuffer) (x y : Int) (width height : Nat)
    (rand : Nat → Nat) (buf2 : PixelBuffer) (px py c : Nat)
    (hok : inpaintRegion buf x y width height rand = Except.ok buf2)
    (hpool : ctxPool buf x y width height (sampleRadius width height) = [])
    (h1 : x ≤ (px : Int)) (h2 : (px : Int) < x + width)
    (h3 : y ≤ (py : Int)) (h4 : (py : Int) < y + height)
    (hpx : px < buf.width) (hpy : py < buf.height) (hc : c < 4) :
    buf2.data ((py * buf.width + px) * 4 + c) = 255 := by
  unfold inpaintRegion at hok
  by_cases hdeg : width = 0 ∨ height = 0
  · rw [if_pos hdeg] at hok
    cases hok
  · rw [if_neg hdeg] at hok
    dsimp only at hok
    rw [hpool] at hok
    simp only [List.length_nil, if_pos] at hok
    injection hok with hb
    subst hb
    rw [putImageData_data buf _ x y width height px py c hpx hpy hc,
      if_pos ⟨h1, h2, h3, h4⟩]
    unfold whiteFill
    rw [if_pos (flatIdx_lt (by omega) (by omega) hc)]

/-- C3: a region whose context pool is empty (no in-bounds pixel in the
surrounding sampling ring) is filled entirely with opaque white
`(255,255,255,255)`. -/
theorem inpaint_empty_pool_white (buf : PixelBuffer) (x y : Int) (width height : Nat)
    (rand : Nat → Nat) (buf2 : PixelBuffer) (px py c : Nat)
    (hok : inpaintRegion buf x y width height rand = Except.ok buf2)
    (hpool : ctxPool buf x y width height (sampleRadius width height) = [])
    (h1 : x ≤ (px : Int)) (h2 : (px : Int) < x + width)
    (h3 : y ≤ (py : Int)) (h4 : (py : Int) < y + height)
    (hpx : px < buf.width) (hpy : py < buf.height) (hc : c < 4) :
    buf2.data ((py * buf.width + px) * 4 + c) = 255 :=
  inpaintWhiteAux buf x y width height rand buf2 px py c hok hpool h1 h2 h3 h4 hpx hpy hc

/-- C3 witness: a region covering a whole 1 × 1 image has an empty pool
and its pixel ends opaque white (alpha byte shown). -/
theorem inpaint_empty_pool_white_witness :
    ∃ b, inpaintRegion buf1 0 0 1 1 (fun _ => 0) = Except.ok b ∧
      b.data ((0 * buf1.width + 0) * 4 + 3) = 255 :=
  ⟨_, rfl, inpaint_empty_pool_white buf1 0 0 1 1 (fun _ => 0) _ 0 0 3 rfl rfl
    (by decide) (by decide) (by decide) (by decide) (by decide) (by decide) (by decide)⟩

/-- C2: inpainting changes no byte of any in-bounds pixel strictly
outside the region rectangle `[x, x+width) × [y, y+height)`. -/
theorem inpaint_outside_unchanged (buf : PixelBuffer) (x y : Int) (width height : Nat)
    (rand : Nat → Nat) (buf2 : PixelBuffer) (px py c : Nat)
    (hok : inpaintRegion buf x y width height rand = Except.ok buf2)
    (hout : ¬(x ≤ (px : Int) ∧ (px : Int) < x + width ∧
      y ≤ (py : Int) ∧ (py : Int) < y + height))
    (hpx : px < buf.width) (hpy : py < buf.height) (hc : c < 4) :
    buf2.data ((py * buf.width + px) * 4 + c) =
      buf.data ((py * buf.width + px) * 4 + c) := by
  unfold inpaintRegion at hok
  by_cases hdeg : width = 0 ∨ height = 0
  · rw [if_pos hdeg] at hok
    cases hok
  · rw [if_neg hdeg] at hok
    dsimp only at hok
    injection hok with hb
    subst hb
    rw [putImageData_data buf _ x y width height px py c hpx hpy hc, if_neg hout]

/-- C2 witness: inpainting the left pixel of a 2 × 1 image leaves the
right pixel byte-identical. -/
theorem inpaint_outside_unchanged_witness :
    ∃ b, inpaintRegion buf2x1 0 0 1 1 (fun _ => 0) = Except.ok b ∧
      b.data ((0 * buf2x1.width + 1) * 4 + 0) =
        buf2x1.data ((0 * buf2x1.width + 1) * 4 + 0) :=
  ⟨_, rfl, inpaint_outside_unchanged buf2x1 0 0 1 1 (fun _ => 0) _ 1 0 0 rfl
    (by decide) (by decide) (by decide) (by decide)⟩

/-- C10: a non-degenerate region narrower or shorter than 4 pixels has
`sampleRadius = 0`, hence an empty context pool, and is therefore filled
with opaque white regardless of the surrounding pixel content. -/
theorem inpaint_small_region_white (buf : PixelBuffer) (x y : Int) (width height : Nat)
    (rand : Nat → Nat) (hw : 0 < width) (hh : 0 < height)
    (hsmall : width < 4 ∨ height < 4) :
    ∃ buf2, inpaintRegion buf x y width height rand = Except.ok buf2 ∧
      ∀ px py c : Nat, x ≤ (px : Int) → (px : Int) < x + width → y ≤ (py : Int) →
        (py : Int) < y + height → px < buf.width → py < buf.height → c < 4 →
        buf2.data ((py * buf.width + px) * 4 + c) = 255 := by
  have hr : sampleRadius width height = 0 := by
    unfold sampleRadius
    omega
  have hpos : ctxPoolPositions buf x y width height 0 = [] := by
    simp [ctxPoolPositions, stripPositions, intRange]
  have hpool : ctxPool buf x y width height (sampleRadius width height) = [] := by
    rw [hr]
    unfold ctxPool
    rw [hpos]
    rfl
  have hok : inpaintRegion buf x y width height rand =
      Except.ok (putImageData buf
        (whiteFill (getImageData buf x y width height) width height) x y width height) := by
    unfold inpaintRegion
    rw [if_neg (by omega)]
    dsimp only
    rw [hpool]
    simp
  exact ⟨_, hok, fun px py c h1 h2 h3 h4 hpx hpy hc =>
    inpaintWhiteAux buf x y width height rand _ px py c hok hpool h1 h2 h3 h4 hpx hpy hc⟩

/-- C10 witness: a 2 × 2 region inside a uniform mid-grey 4 × 4 image is
filled white even though all surrounding pixels hold `100`. -/
theorem inpaint_small_region_white_witness :
    ∃ buf2, inpaintRegion buf4 1 1 2 2 (fun _ => 0) = Except.ok buf2 ∧
      buf2.data ((1 * buf4.width + 1) * 4 + 0) = 255 := by
  obtain ⟨buf2, hok, hwhite⟩ := inpaint_small_region_white buf4 1 1 2 2 (fun _ => 0)
    (by decide) (by decide) (by decide)
  exact ⟨buf2, hok, hwhite 1 1 0 (by decide) (by decide) (by decide) (by decide)
    (by decide) (by decide) (by decide)⟩

theorem mem_stripPositions {buf : PixelBuffer} {x y ilo ihi jlo jhi : Int}
    {pos : Int × Int} :
    pos ∈ stripPositions buf x y ilo ihi jlo jhi ↔
      (0 ≤ pos.1 ∧ pos.1 < buf.width ∧ 0 ≤ pos.2 ∧ pos.2 < buf.height) ∧
      x + ilo ≤ pos.1 ∧ pos.1 < x + ihi ∧ y + jlo ≤ pos.2 ∧ pos.2 < y + jhi := by
  obtain ⟨px, py⟩ := pos
  unfold stripPositions
  constructor
  · intro hmem
    obtain ⟨i, hi, hin⟩ := List.mem_flatMap.1 hmem
    obtain ⟨j, hj, hsome⟩ := List.mem_filterMap.1 hin
    rw [mem_intRange] at hi hj
    by_cases hcond : 0 ≤ x + i ∧ x + i < (buf.width : Int) ∧
        0 ≤ y + j ∧ y + j < (buf.height : Int)
    · rw [if_pos hcond] at hsome
      injection hsome with hpair
      rw [Prod.mk.injEq] at hpair
      obtain ⟨e1, e2⟩ := hpair
      subst e1
      subst e2
      dsimp only
      omega
    · rw [if_neg hcond] at hsome
      cases hsome
  · intro hb
    dsimp only at hb
    refine List.mem_flatMap.2 ⟨px - x, mem_intRange.2 (by omega),
      List.mem_filterMap.2 ⟨py - y, mem_intRange.2 (by omega), ?_⟩⟩
    rw [if_pos (by constructor <;> [omega; constructor <;> [omega; constructor <;> omega]])]
    have e1 : x + (px - x) = px := by ring
    have e2 : y + (py - y) = py := by ring
    rw [e1, e2]

/-- C6: the sampling radius is `min(20, ⌊min(width, height)/4⌋)` and the
context pool is read from exactly the in-bounds positions of the square
annulus of thickness `sampleRadius` around the region (the four strips
cover the ring, corners included, each in-bounds ring position
contributing its RGBA sample). -/
theorem ctxPool_ring (buf : PixelBuffer) (x y : Int) (w h : Nat) :
    sampleRadius w h = min 20 (min w h / 4) ∧
    (∀ pos : Int × Int,
      pos ∈ ctxPoolPositions buf x y w h (sampleRadius w h) ↔
        ((0 ≤ pos.1 ∧ pos.1 < buf.width ∧ 0 ≤ pos.2 ∧ pos.2 < buf.height) ∧
         (x - sampleRadius w h ≤ pos.1 ∧ pos.1 < x + w + sampleRadius w h ∧
          y - sampleRadius w h ≤ pos.2 ∧ pos.2 < y + h + sampleRadius w h) ∧
         ¬(x ≤ pos.1 ∧ pos.1 < x + w ∧ y ≤ pos.2 ∧ pos.2 < y + h))) ∧
    ctxPool buf x y w h (sampleRadius w h) =
      (ctxPoolPositions buf x y w h (sampleRadius w h)).map
        fun pos => pixelAt buf pos.1 pos.2 := by
  refine ⟨rfl, ?_, rfl⟩
  intro pos
  generalize sampleRadius w h = r
  unfold ctxPoolPositions
  simp only [List.mem_append, mem_stripPositions]
  obtain ⟨px, py⟩ := pos
  dsimp only
  omega

theorem threshold_three_tenths (t tot : Nat) :
    ((t : ℚ) > 0.3 * (tot : ℚ)) ↔ 3 * tot < 10 * t := by
  rw [gt_iff_lt, show (0.3 : ℚ) = 3 / 10 by norm_num, div_mul_eq_mul_div,
    div_lt_iff (by norm_num : (0 : ℚ) < 10),
    show (3 : ℚ) * (tot : ℚ) = ((3 * tot : Nat) : ℚ) by push_cast; ring,
    show (t : ℚ) * 10 = ((10 * t : Nat) : ℚ) by push_cast; ring,
    Nat.cast_lt]

theorem threshold_half (b tot : Nat) :
    ((b : ℚ) > 0.5 * (tot : ℚ)) ↔ tot < 2 * b := by
  rw [gt_iff_lt, show (0.5 : ℚ) = 1 / 2 by norm_num, div_mul_eq_mul_div,
    div_lt_iff (by norm_num : (0 : ℚ) < 2),
    show (1 : ℚ) * (tot : ℚ) = ((tot : Nat) : ℚ) by push_cast; ring,
    show (b : ℚ) * 2 = ((2 * b : Nat) : ℚ) by push_cast; ring,
    Nat.cast_lt]

theorem luminExtreme_eq (buf : PixelBuffer) (pos : Nat × Nat) :
    luminExtreme buf pos = isExtreme buf pos := by
  unfold luminExtreme isExtreme
  dsimp only
  rw [decide_eq_decide]
  rw [gt_iff_lt, lt_div_iff (by norm_num : (0 : ℚ) < 3),
    show (200 : ℚ) * 3 = ((600 : Nat) : ℚ) by norm_num,
    div_lt_iff (by norm_num : (0 : ℚ) < 3),
    show (50 : ℚ) * 3 = ((150 : Nat) : ℚ) by norm_num,
    Nat.cast_lt, Nat.cast_lt]

theorem foldl_countStep (buf : PixelBuffer) (l : List (Nat × Nat)) (acc : Nat × Nat × Nat) :
    l.foldl (countStep buf) acc =
      (acc.1 + l.countP (isTransparent buf), acc.2.1 + l.countP (isExtreme buf),
       acc.2.2 + l.length) := by
  induction l generalizing acc with
  | nil => simp
  | cons a t ih =>
    rw [List.foldl_cons, ih]
    obtain ⟨a1, a2, a3⟩ := acc
    simp only [countStep, List.countP_cons, List.length_cons]
    by_cases h1 : isTransparent buf a <;> by_cases h2 : isExtreme buf a <;>
      simp [h1, h2] <;> omega

theorem blockCounts_eq (buf : PixelBuffer) (bx gy : Nat) :
    blockCounts buf bx gy =
      ((blockPixelList buf.width buf.height bx gy).countP (isTransparent buf),
       (blockPixelList buf.width buf.height bx gy).countP (isExtreme buf),
       (blockPixelList buf.width buf.height bx gy).length) := by
  unfold blockCounts
  rw [foldl_countStep]
  simp

theorem mem_blockOrigins {w h bx gy : Nat} :
    (bx, gy) ∈ blockOrigins w h ↔
      bx % gridSize = 0 ∧ gy % gridSize = 0 ∧ bx < w ∧ gy < h := by
  unfold blockOrigins gridSize
  constructor
  · intro hmem
    obtain ⟨gy', hgy, hin⟩ := List.mem_flatMap.1 hmem
    obtain ⟨bx', hbx, hpair⟩ := List.mem_map.1 hin
    obtain ⟨a, ha, e1⟩ := List.mem_map.1 hgy
    obtain ⟨b, hb2, e2⟩ := List.mem_map.1 hbx
    rw [List.mem_range] at ha hb2
    rw [Prod.mk.injEq] at hpair
    obtain ⟨ebx, egy⟩ := hpair
    subst ebx
    subst egy
    subst e1
    subst e2
    refine ⟨by omega, by omega, by omega, by omega⟩
  · intro hcond
    refine List.mem_flatMap.2 ⟨gy,
      List.mem_map.2 ⟨gy / 32, List.mem_range.2 (by omega), by omega⟩,
      List.mem_map.2 ⟨bx,
        List.mem_map.2 ⟨bx / 32, List.mem_range.2 (by omega), by omega⟩, rfl⟩⟩

theorem blockSelection_inj {w h bx gy bx' gy' : Nat} (hw : 0 < w) (hh : 0 < h)
    (heq : blockSelection w h bx gy = blockSelection w h bx' gy') :
    bx = bx' ∧ gy = gy' := by
  rw [blockSelection, blockSelection, WatermarkSelection.mk.injEq] at heq
  obtain ⟨hxq, hyq, -, -, -⟩ := heq
  have hwQ : ((w : Nat) : ℚ) ≠ 0 := Nat.cast_ne_zero.2 (by omega)
  have hhQ : ((h : Nat) : ℚ) ≠ 0 := Nat.cast_ne_zero.2 (by omega)
  have e1 : ((bx : Nat) : ℚ) = ((bx' : Nat) : ℚ) := (div_left_inj' hwQ).1 hxq
  have e2 : ((gy : Nat) : ℚ) = ((gy' : Nat) : ℚ) := (div_left_inj' hhQ).1 hyq
  exact ⟨Nat.cast_inj.1 e1, Nat.cast_inj.1 e2⟩

/-- C1: the detector emits the selection of a grid block exactly when
the block's count of pixels with alpha below 200 exceeds `0.3` times the
block's pixel count, or its count of pixels with luminance `(R+G+B)/3`
above 200 or below 50 exceeds `0.5` times the block's pixel count. -/
theorem detect_block_iff (buf : PixelBuffer) (bx gy : Nat)
    (hx : bx < buf.width) (hy : gy < buf.height)
    (hxg : bx % gridSize = 0) (hyg : gy % gridSize = 0) :
    blockSelection buf.width buf.height bx gy ∈ detectWatermarks buf ↔
      (((blockPixelList buf.width buf.height bx gy).countP (isTransparent buf) : ℚ) >
          0.3 * ((blockPixelList buf.width buf.height bx gy).length : ℚ) ∨
        ((blockPixelList buf.width buf.height bx gy).countP (luminExtreme buf) : ℚ) >
          0.5 * ((blockPixelList buf.width buf.height bx gy).length : ℚ)) := by
  have hw : 0 < buf.width := by omega
  have hh : 0 < buf.height := by omega
  have hcong : (blockPixelList buf.width buf.height bx gy).countP (luminExtreme buf) =
      (blockPixelList buf.width buf.height bx gy).countP (isExtreme buf) :=
    List.countP_congr fun a _ => by rw [luminExtreme_eq]
  have hflag : (blockFlagged buf bx gy = true) ↔
      (((blockPixelList buf.width buf.height bx gy).countP (isTransparent buf) : ℚ) >
          0.3 * ((blockPixelList buf.width buf.height bx gy).length : ℚ) ∨
        ((blockPixelList buf.width buf.height bx gy).countP (luminExtreme buf) : ℚ) >
          0.5 * ((blockPixelList buf.width buf.height bx gy).length : ℚ)) := by
    unfold blockFlagged
    rw [blockCounts_eq]
    dsimp only
    rw [decide_eq_true_eq, hcong, threshold_three_tenths, threshold_half]
  unfold detectWatermarks
  constructor
  · intro hmem
    obtain ⟨pos, hpos, hsome⟩ := List.mem_filterMap.1 hmem
    by_cases hfl : blockFlagged buf pos.1 pos.2
    · rw [if_pos hfl] at hsome
      injection hsome with hsel
      obtain ⟨e1, e2⟩ := blockSelection_inj hw hh hsel
      rw [e1, e2] at hfl
      exact hflag.1 hfl
    · rw [if_neg hfl] at hsome
      cases hsome
  · intro hcond
    exact List.mem_filterMap.2 ⟨(bx, gy), mem_blockOrigins.2 ⟨hxg, hyg, hx, hy⟩,
      by rw [if_pos (hflag.2 hcond)]⟩

/-- C1 witness: the threshold image with 308 low-alpha pixels, at its
single block. -/
theorem detect_block_iff_witness :
    blockSelection (bufThresh 308).width (bufThresh 308).height 0 0 ∈
        detectWatermarks (bufThresh 308) ↔
      (((blockPixelList (bufThresh 308).width (bufThresh 308).height 0 0).countP
            (isTransparent (bufThresh 308)) : ℚ) >
          0.3 * ((blockPixelList (bufThresh 308).width (bufThresh 308).height 0 0).length : ℚ) ∨
        ((blockPixelList (bufThresh 308).width (bufThresh 308).height 0 0).countP
            (luminExtreme (bufThresh 308)) : ℚ) >
          0.5 * ((blockPixelList (bufThresh 308).width (bufThresh 308).height 0 0).length : ℚ)) :=
  detect_block_iff (bufThresh 308) 0 0 (by decide) (by decide) (by decide) (by decide)

set_option maxRecDepth 100000 in
/-- C7 counterexample: in the 32 × 32 block with exactly 307 pixels of
alpha 150 (rest 255, luminance held at 128), the detector flags nothing —
307 does not exceed `0.3 * 1024 = 307.2`, so the claimed flagging at 307
fails. -/
theorem detect_threshold_307 : detectWatermarks (bufThresh 307) = [] := rfl

set_option maxRecDepth 100000 in
/-- C7 amended: the transparency rule fires first at 308 low-alpha
pixels out of 1024 (the block is emitted), while at 307 (see the
counterexample) and 306 the block is not flagged. -/
theorem detect_threshold_boundary :
    detectWatermarks (bufThresh 308) = [blockSelection 32 32 0 0] ∧
    detectWatermarks (bufThresh 306) = [] :=
  ⟨rfl, rfl⟩

theorem removeLoop_progress (sels : List WatermarkSelection) :
    ∀ (buf : PixelBuffer) (total i : Nat) (rand : Nat → Nat → Nat)
      (b : PixelBuffer) (ps : List ℚ),
      removeLoop buf sels total i rand = Except.ok (b, ps) →
      ps = (List.range sels.length).map
        fun k => (((i + k + 1 : Nat) : ℚ) / (total : ℚ)) * 100 := by
  induction sels with
  | nil =>
    intro buf total i rand b ps hok
    unfold removeLoop at hok
    injection hok with hp
    rw [Prod.mk.injEq] at hp
    rw [← hp.2]
    simp
  | cons sel rest ih =>
    intro buf total i rand b ps hok
    unfold removeLoop at hok
    dsimp only at hok
    cases hinp : inpaintRegion buf (denormalize sel.x buf.width)
        (denormalize sel.y buf.height) (denormalize sel.width buf.width).toNat
        (denormalize sel.height buf.height).toNat (rand i) with
    | error e =>
      rw [hinp] at hok
      simp at hok
    | ok buf2 =>
      rw [hinp] at hok
      dsimp only at hok
      cases hloop : removeLoop buf2 rest total (i + 1) rand with
      | error e =>
        rw [hloop] at hok
        simp at hok
      | ok pr =>
        obtain ⟨b3, ps'⟩ := pr
        rw [hloop] at hok
        dsimp only at hok
        injection hok with hp
        rw [Prod.mk.injEq] at hp
        rw [← hp.2]
        have hrest := ih buf2 total (i + 1) rand b3 ps' hloop
        rw [hrest, List.length_cons, List.range_succ_eq_map, List.map_cons, List.map_map]
        have hhead : (((i + 1 : Nat) : ℚ)) / (total : ℚ) * 100 =
            (((i + 0 + 1 : Nat) : ℚ)) / (total : ℚ) * 100 := by
          rw [show i + 0 + 1 = i + 1 from by omega]
        have htail :
            List.map (fun k => (((i + 1 + k + 1 : Nat) : ℚ)) / (total : ℚ) * 100)
              (List.range rest.length) =
            List.map ((fun k => (((i + k + 1 : Nat) : ℚ)) / (total : ℚ) * 100) ∘ Nat.succ)
              (List.range rest.length) := by
          refine List.map_congr_left fun k hk => ?_
          dsimp only [Function.comp]
          rw [show i + 1 + k + 1 = i + Nat.succ k + 1 from by omega]
        rw [hhead, htail]

/-- C8: a successful run over N ≥ 1 regions emits exactly N progress
values, the k-th being `(k+1)/N * 100`, strictly increasing and ending
at 100. -/
theorem removeWatermark_progress (buf : PixelBuffer) (sels : List WatermarkSelection)
    (rand : Nat → Nat → Nat) (b : PixelBuffer) (ps : List ℚ)
    (hok : removeWatermark buf sels rand = Except.ok (b, ps)) (hne : sels ≠ []) :
    ps = (List.range sels.length).map
        (fun k => (((k + 1 : Nat) : ℚ) / ((sels.length : Nat) : ℚ)) * 100) ∧
      List.Chain' (· < ·) ps ∧ ps.getLast? = some 100 := by
  have hn : 0 < sels.length := List.length_pos.2 hne
  have hmap := removeLoop_progress sels buf sels.length 0 rand b ps hok
  have hmap2 : ps = (List.range sels.length).map
      (fun k => (((k + 1 : Nat) : ℚ) / ((sels.length : Nat) : ℚ)) * 100) := by
    rw [hmap]
    apply List.map_congr_left
    intro k hk
    have e : 0 + k + 1 = k + 1 := by omega
    rw [e]
  have hnQ : (0 : ℚ) < ((sels.length : Nat) : ℚ) := by exact_mod_cast hn
  refine ⟨hmap2, ?_, ?_⟩
  · rw [hmap2, List.chain'_map]
    refine List.Pairwise.chain' ((List.pairwise_lt_range _).imp ?_)
    intro a b2 hab
    refine mul_lt_mul_of_pos_right ?_ (by norm_num)
    rw [div_lt_div_right hnQ]
    exact_mod_cast Nat.succ_lt_succ hab
  · rw [hmap2]
    rcases hlen : sels.length with _ | n
    · omega
    · rw [List.range_succ, List.map_append, List.map_singleton,
        List.getLast?_concat]
      have hne0 : (((n + 1 : Nat)) : ℚ) ≠ 0 := Nat.cast_ne_zero.2 (by omega)
      rw [div_self hne0, one_mul]

/-- C8 witness: one whole-image region on the 1 × 1 test image emits the
single progress value 100. -/
theorem removeWatermark_progress_witness :
    ∃ (b : PixelBuffer) (ps : List ℚ),
      removeWatermark buf1 [sel11] (fun _ _ => 0) = Except.ok (b, ps) ∧
      (ps = (List.range ([sel11].length)).map
          (fun k => (((k + 1 : Nat) : ℚ) / (([sel11].length : Nat) : ℚ)) * 100) ∧
        List.Chain' (· < ·) ps ∧ ps.getLast? = some 100) :=
  ⟨_, _, rfl, removeWatermark_progress buf1 [sel11] (fun _ _ => 0) _ _ rfl (by decide)⟩
